import Mathlib

/-! Verification of the test-vector generation orchestrator
(gen/builders generator: Group, generateVariants, vectorsEqual,
vectorFilename, removePrevious) against its natural-language
specification.

The Go source is shallowly embedded: structs become structures, the
side-effecting persistence loop becomes explicit state passing over a
model of the output directory, JSON serialization becomes an injective
token-list encoding (Go json.Marshal is deterministic and injective on
distinct values of this schema), and the blake2b content hash is
modelled by the hashed bytes themselves, following the spec, which
treats hash collisions as impossible at generator scale.
-/

set_option maxHeartbeats 1000000

namespace Gen

/-- schema.GenerationData: provenance of one contributing dependency
(source + version), stamped into each generated vector. -/
structure GenerationData where
  source : String
  version : String
deriving DecidableEq

/-- One entry of schema.Preconditions.Variants: a protocol-version tag
attached to a vector; `id` is the version identifier used in file names. -/
structure Variant where
  id : String
deriving DecidableEq

/-- schema.Metadata. The generator reads `id` (file naming, log messages)
and writes `gen` (generation provenance); `desc` stands for the remaining
descriptive fields, which the generator never touches. -/
structure Metadata where
  id : String
  desc : String
  gen : List GenerationData
deriving DecidableEq

/-- schema.TestVector at the granularity the generator observes: the
`_meta` field (a nil-able pointer in Go, hence `Option`), the
`Pre.Variants` list, and an opaque `body` standing for every other field
(class, selector, car, preconditions minus variants, apply messages,
postconditions). The generator never inspects the body. -/
structure TestVector where
  meta : Option Metadata
  variants : List Variant
  body : String
deriving DecidableEq

/-- One JSON value in the serialized byte stream. Go json.Marshal is
deterministic and injective on distinct values of this schema (strings
are escaped, fields appear in declaration order), so the serialized
bytes are modelled as a token list, one token per observed field,
injective by construction. -/
inductive JsonTok where
  | jmeta : Option Metadata → JsonTok
  | jvariants : List Variant → JsonTok
  | jbody : String → JsonTok
deriving DecidableEq

/-- schema.TestVector.MustMarshalJSON: the serialized form of a vector. -/
def TestVector.mustMarshalJSON (v : TestVector) : List JsonTok :=
  [JsonTok.jmeta v.meta, JsonTok.jvariants v.variants, JsonTok.jbody v.body]

/-- A protocol version: an identifier plus version-scoped configuration
(the configuration is consumed only by the opaque generation functions,
so the identifier is what the orchestrator observes). -/
structure ProtocolVersion where
  id : String
deriving DecidableEq

/-- gen/builders VectorDef. `Selector` and `Mode` are consumed only by
the opaque builders, so they are folded into the generation functions;
`messageFunc`/`tipsetFunc` model MessageFunc/TipsetFunc as producing the
opaque body of the vector for a given protocol version (determinism per
spec section 4.1). `metadata` models the shared `*schema.Metadata`
pointer: writes to it through the definition are visible to the caller. -/
structure VectorDef where
  metadata : Metadata
  supportedVersions : List ProtocolVersion
  hints : List String
  messageFunc : Option (ProtocolVersion → String)
  tipsetFunc : Option (ProtocolVersion → String)

/-- The variant tag recording the protocol version that produced a
vector (schema.Variant with the version's identifier). -/
def variantTag (pv : ProtocolVersion) : Variant :=
  { id := pv.id }

/-- Modelled from the spec: the MessageVector/TipsetVector builders and
Builder.Finish are not under src/. Per spec sections 3 and 4.1, the
Variant Executor invokes the opaque generation function in a fresh
context scoped to one protocol version and finalizes exactly one
artifact, carrying the definition's metadata and one variant tag
recording the producing version. -/
def runBuilder (md : Metadata) (f : ProtocolVersion → String)
    (pv : ProtocolVersion) : TestVector :=
  { meta := some md, variants := [variantTag pv], body := f pv }

/-- The content hash key used by the dedup loop of generateVariants:
blake2b.Sum256 of the vector's serialized form with Pre.Variants
cleared. Collisions are impossible per spec section 4.2, so the digest
is modelled by the hashed bytes themselves. -/
def vectorKey (v : TestVector) : List JsonTok :=
  TestVector.mustMarshalJSON { v with variants := [] }

/-- The `uniq` accumulator of generateVariants: a hash-keyed map of
representative vectors, modelled as an insertion-ordered association
list (Go map iteration order is immaterial to every claim). -/
abbrev Uniq := List (List JsonTok × TestVector)

/-- Go map read `uniq[hash]`. -/
def uniqLookup : Uniq → List JsonTok → Option TestVector
  | [], _ => none
  | p :: rest, k => if p.1 = k then some p.2 else uniqLookup rest k

/-- The in-place merge `merged.Pre.Variants = append(merged.Pre.Variants,
variants...)` on the entry keyed by `k`. -/
def appendVariants (uniq : Uniq) (k : List JsonTok) (vs : List Variant) : Uniq :=
  uniq.map (fun p =>
    if p.1 = k then (p.1, { p.2 with variants := p.2.variants ++ vs }) else p)

/-- The dedup loop of generateVariants (lines 472-484): for each vector
in order, stash and clear its variants, hash the cleared serialization;
on a hit, append the stashed variants to the representative; on a miss,
restore the variants (recovering the original vector) and insert it. -/
def dedupInto : Uniq → List TestVector → Uniq
  | uniq, [] => uniq
  | uniq, v :: rest =>
    match uniqLookup uniq (vectorKey v) with
    | some _ => dedupInto (appendVariants uniq (vectorKey v) v.variants) rest
    | none => dedupInto (uniq ++ [(vectorKey v, v)]) rest

/-- The deduplicated vector list returned by generateVariants: the
values of the `uniq` map. -/
def dedup (vs : List TestVector) : List TestVector :=
  (dedupInto [] vs).map Prod.snd

/-- GenscriptCommit: "dirty" unless overridden at link time. -/
def GenscriptCommit : String := "dirty"

/-- genData: the generation provenance stamped into every vector. The
leading genscript entry is fixed by the source; getBuildInfo()'s
runtime-reflected dependency entries are omitted (no claim depends on
the tail, only on the stamped value replacing the previous one). -/
def genData : List GenerationData :=
  [{ source := "genscript", version := GenscriptCommit }]

/-- Generator.generateVariants (lines 437-503). `known` is the
KnownProtocolVersions list (declared outside src/), passed explicitly so
every theorem holds for an arbitrary known-version list. The second
component is the caller-visible Metadata object after the call: line 443
(`b.Metadata.Gen = genData`) writes through the shared pointer, so the
caller observes the stamped metadata (state passing for the pointer
write). The `default: panic` branch of the version loop becomes `none`. -/
def generateVariants (known : List ProtocolVersion) (b : VectorDef) :
    Option (List TestVector) × Metadata :=
  let versions := if b.supportedVersions.isEmpty then known else b.supportedVersions
  let md : Metadata := { b.metadata with gen := genData }
  let res : Option (List TestVector) :=
    match b.messageFunc, b.tipsetFunc with
    | some f, _ => some (dedup (versions.map (fun pv => runBuilder md f pv)))
    | none, some f => some (dedup (versions.map (fun pv => runBuilder md f pv)))
    | none, none => none
  (res, md)

/-- brokenVectorPrefix in the source: the marker prepended to file names
of vectors carrying the known-incorrect hint. -/
def brokenMarker : String := "x--"

/-- Modelled from the spec: schema.HintIncorrect (schema package is not
under src/) is the reserved hint marking a vector knowingly incorrect;
only membership in VectorDef.Hints matters, never the literal value. -/
def HintIncorrect : String := "incorrect"

/-- vectorFilename (lines 382-395):
group--caseID--firstVariantTag.json, with the broken marker prepended
when the hints contain the known-incorrect hint. Go indexes
`vector.Pre.Variants[0]`, which panics on an empty list; the model
totalizes with `headD` and the in-bounds safety is proved separately. -/
def vectorFilename (group : String) (item : VectorDef) (vector : TestVector) : String :=
  let filename := group ++ "--" ++ item.metadata.id ++ "--"
    ++ (vector.variants.headD { id := "" }).id ++ ".json"
  if item.hints.any (fun h => decide (h = HintIncorrect)) then
    brokenMarker ++ filename
  else
    filename

/-- The twin file name computed by removePrevious (lines 530-544): if
the file name carries the broken marker, strip it (strings.Replace with
count 1 removes the first occurrence, which under the HasPrefix guard is
the leading one), otherwise prepend it. -/
def twinName (group : String) (item : VectorDef) (vector : TestVector) : String :=
  let filename := vectorFilename group item vector
  if brokenMarker.data.isPrefixOf filename.data then
    String.mk (filename.data.drop brokenMarker.data.length)
  else
    brokenMarker ++ filename

/-- The output directory, modelled as an association list from file name
to the (parsed) vector stored in that file. A key absent from the list
is a file that does not exist; an entry untouched by a run is a file
whose on-disk bytes are untouched (file bytes are written only through
fsSet). -/
abbrev FS := List (String × TestVector)

/-- os.Stat + parseVectorFile: the file at path `p`, if it exists. -/
def fsGet : FS → String → Option TestVector
  | [], _ => none
  | e :: rest, p => if p = e.1 then some e.2 else fsGet rest p

/-- os.Remove (tolerating a missing file, as removePrevious does). -/
def fsRemove (fs : FS) (p : String) : FS :=
  fs.filter (fun e => decide (e.1 ≠ p))

/-- os.Rename of a freshly written temp file onto path `p`: atomically
replaces whatever was there. -/
def fsSet (fs : FS) (p : String) (v : TestVector) : FS :=
  (p, v) :: fsRemove fs p

/-- removePrevious (lines 530-544): delete the stale opposite
broken-state file at the twin name. -/
def removePrevious (fs : FS) (group : String) (item : VectorDef)
    (vector : TestVector) : FS :=
  fsRemove fs (twinName group item vector)

/-- vectorBytesNoMeta (lines 414-421): parse the stored vector, clear
Meta, and re-serialize. -/
def vectorBytesNoMeta (v : TestVector) : List JsonTok :=
  TestVector.mustMarshalJSON { v with meta := none }

/-- vectorsEqual (lines 425-435): byte equality of the two
metadata-stripped serializations. Stated on parsed file contents; the
file-path indirection is resolved by the FS model. -/
def vectorsEqual (a b : TestVector) : Bool :=
  decide (vectorBytesNoMeta a = vectorBytesNoMeta b)

/-- OverwriteMode (lines 99-108). -/
inductive OverwriteMode where
  | None
  | Update
  | Force
deriving DecidableEq

/-- Terminal state of the per-artifact persistence state machine:
written (renamed into place), skippedEqual ("no changes"), or
skippedRefused (the OverwriteNone warning: "vector changed, use -u or -f
to overwrite"). -/
inductive WriteOutcome where
  | written
  | skippedEqual
  | skippedRefused
deriving DecidableEq

/-- The per-vector persistence step of Generator.Group (lines 298-362):
serialize to a temp file (scoped to the group, removed afterwards, so it
leaves no trace in the output directory), stat the final path, then:
Force overwrites unconditionally; equal content is skipped; None refuses
with a warning; Update (or a missing file) renames the temp file into
place and removes the stale twin. -/
def persistVector (mode : OverwriteMode) (fs : FS) (group : String)
    (item : VectorDef) (v : TestVector) : FS × WriteOutcome :=
  let existing := vectorFilename group item v
  let written : FS × WriteOutcome :=
    (removePrevious (fsSet fs existing v) group item v, WriteOutcome.written)
  match fsGet fs existing with
  | some old =>
    if mode = OverwriteMode.Force then written
    else if vectorsEqual v old then (fs, WriteOutcome.skippedEqual)
    else if mode = OverwriteMode.None then (fs, WriteOutcome.skippedRefused)
    else written
  | none => written

/-- The persistence loop over a definition's deduplicated vectors (and,
concatenated, over the definitions of a group: the goroutines write to
disjoint names, spec section 5, so the sequential fold is a faithful
linearization). -/
def persistAll (mode : OverwriteMode) (group : String) :
    FS → List (VectorDef × TestVector) → FS × List WriteOutcome
  | fs, [] => (fs, [])
  | fs, e :: rest =>
    let r := persistVector mode fs group e.1 e.2
    let rr := persistAll mode group r.1 rest
    (rr.1, r.2 :: rr.2)

/-- The skip condition of the validation loop (line 250):
`g.IncludeFilter != nil && !match(id) && !match(group)`. The filter is
the abstract match predicate of the compiled regexp. -/
def filteredOut (filt : Option (String → Bool)) (group : String)
    (v : VectorDef) : Bool :=
  match filt with
  | some f => (!f v.metadata.id) && (!f group)
  | none => false

/-- The validation and filtering loop of Generator.Group (lines
240-255): a definition with both generation functions, or neither,
panics (modelled as Except.error), aborting the group before any task
starts; a definition matching neither the id nor the group name under
the inclusion filter is skipped. -/
def validateAndFilter (filt : Option (String → Bool)) (group : String) :
    List VectorDef → Except String (List VectorDef)
  | [] => Except.ok []
  | v :: rest =>
    if v.messageFunc.isSome && v.tipsetFunc.isSome then
      Except.error ("vector with id " ++ v.metadata.id ++ " had more than one function")
    else if (!v.messageFunc.isSome) && (!v.tipsetFunc.isSome) then
      Except.error ("vector with id " ++ v.metadata.id ++ " had no functions")
    else if filteredOut filt group v then
      validateAndFilter filt group rest
    else
      match validateAndFilter filt group rest with
      | Except.ok l => Except.ok (v :: l)
      | Except.error e => Except.error e

/-- The per-definition task body: generate the deduplicated variants,
then persist each (the stdout path, OutputPath empty, writes no files
and is out of scope of the persistence claims). -/
def runDefs (mode : OverwriteMode) (known : List ProtocolVersion) (group : String) :
    FS → List VectorDef → FS × List WriteOutcome
  | fs, [] => (fs, [])
  | fs, item :: rest =>
    let r :=
      match (generateVariants known item).1 with
      | none => (fs, ([] : List WriteOutcome))
      | some vs => persistAll mode group fs (vs.map (fun v => (item, v)))
    let rr := runDefs mode known group r.1 rest
    (rr.1, r.2 ++ rr.2)

/-- Generator.Group for one group: validate and filter, then run every
surviving definition. A validation panic aborts the group with no
filesystem effect (the error carries no FS). -/
def runGroupDefs (mode : OverwriteMode) (filt : Option (String → Bool))
    (known : List ProtocolVersion) (group : String) (fs : FS)
    (defs : List VectorDef) : Except String (FS × List WriteOutcome) :=
  match validateAndFilter filt group defs with
  | Except.error e => Except.error e
  | Except.ok gen => Except.ok (runDefs mode known group fs gen)

/-- Invariant of the `uniq` accumulator of the dedup loop, after the
vectors in `processed` have been consumed: keys are distinct, each entry
is keyed by its representative's content hash, the keys are exactly the
content hashes of the processed vectors, and each representative carries
the concatenation, in first-seen order, of the variant lists of every
processed vector with its hash. -/
def UniqInv (processed : List TestVector) (uniq : Uniq) : Prop :=
  (uniq.map Prod.fst).Nodup ∧
  (∀ p ∈ uniq, vectorKey p.2 = p.1) ∧
  (∀ k, k ∈ uniq.map Prod.fst ↔ k ∈ processed.map vectorKey) ∧
  (∀ p ∈ uniq, p.2.variants =
    ((processed.filter (fun w => decide (vectorKey w = p.1))).map
      TestVector.variants).flatten)

/-! Concrete instances used by the witness theorems. -/

def exVersA : ProtocolVersion := { id := "pvA" }

def exVersB : ProtocolVersion := { id := "pvB" }

def exKnown : List ProtocolVersion := [exVersA, exVersB]

def exMeta : Metadata := { id := "case1", desc := "d", gen := [] }

/-- A valid message-class definition whose generation function ignores
the protocol version. -/
def exDef : VectorDef :=
  { metadata := exMeta
    supportedVersions := []
    hints := []
    messageFunc := some (fun _ => "bodyA")
    tipsetFunc := none }

/-- An invalid definition: neither generation function is set. -/
def exBadDef : VectorDef :=
  { metadata := { id := "bad", desc := "", gen := [] }
    supportedVersions := []
    hints := []
    messageFunc := none
    tipsetFunc := none }

def exVecA : TestVector :=
  { meta := some exMeta, variants := [{ id := "pvA" }], body := "bodyA" }

def exVecA2 : TestVector :=
  { meta := some exMeta, variants := [{ id := "pvB" }], body := "bodyA" }

/-- Same metadata-stripped bytes as exVecA, different metadata. -/
def exOldEq : TestVector :=
  { meta := none, variants := [{ id := "pvA" }], body := "bodyA" }

/-- Different metadata-stripped bytes (different body). -/
def exOldDiff : TestVector :=
  { meta := none, variants := [{ id := "pvA" }], body := "other" }

def exFSEq : FS := [(vectorFilename "g" exDef exVecA, exOldEq)]

def exFSDiff : FS := [(vectorFilename "g" exDef exVecA, exOldDiff)]

/-- A definition carrying the known-incorrect hint. -/
def exDefBroken : VectorDef :=
  { metadata := exMeta
    supportedVersions := []
    hints := [HintIncorrect]
    messageFunc := some (fun _ => "bodyA")
    tipsetFunc := none }

/-- The merged artifact produced by deduplicating exVecA and exVecA2. -/
def exMergedAB : TestVector :=
  { meta := some exMeta
    variants := [{ id := "pvA" }, { id := "pvB" }]
    body := "bodyA" }

/-- The single artifact generateVariants produces for exDef over exKnown. -/
def exMerged : TestVector :=
  { meta := some { exMeta with gen := genData }
    variants := [{ id := "pvA" }, { id := "pvB" }]
    body := "bodyA" }

end Gen

namespace Gen

/-! Helper lemmas about the embedded definitions. -/

theorem vectorKey_set_variants (v : TestVector) (l : List Variant) :
    vectorKey { v with variants := l } = vectorKey v := rfl

theorem vectorsEqual_refl (v : TestVector) : vectorsEqual v v = true := by
  simp [vectorsEqual]

theorem flatten_map_singleton {α β : Type} (f : α → β) (l : List α) :
    (l.map (fun a => [f a])).flatten = l.map f := by
  induction l with
  | nil => rfl
  | cons a l ih => simp [ih]

theorem fsGet_fsRemove (fs : FS) (p q : String) :
    fsGet (fsRemove fs p) q = if q = p then none else fsGet fs q := by
  induction fs with
  | nil => simp [fsRemove, fsGet]
  | cons e rest ih =>
    by_cases hep : e.1 = p
    · by_cases hqp : q = p <;>
        simp [fsRemove, List.filter_cons, fsGet, hep, hqp] <;>
        simpa [fsRemove, hqp] using ih
    · by_cases hqe : q = e.1
      · have hqp : ¬q = p := fun h => hep (hqe ▸ h)
        simp [fsRemove, List.filter_cons, fsGet, hep, hqe, hqp]
      · simp [fsRemove, List.filter_cons, fsGet, hep, hqe]
        simpa [fsRemove] using ih

theorem fsGet_fsSet (fs : FS) (p q : String) (v : TestVector) :
    fsGet (fsSet fs p v) q = if q = p then some v else fsGet fs q := by
  by_cases h : q = p <;> simp [fsSet, fsGet, h, fsGet_fsRemove]

theorem isPrefixOf_exists {l1 l2 : List Char} (h : l1.isPrefixOf l2 = true) :
    ∃ t, l1 ++ t = l2 := by
  induction l1 generalizing l2 with
  | nil => exact ⟨l2, rfl⟩
  | cons a l ih =>
    cases l2 with
    | nil => simp at h
    | cons b l2 =>
      rw [List.isPrefixOf_cons₂] at h
      obtain ⟨hab, hrest⟩ := Bool.and_eq_true_iff.mp h
      obtain ⟨t, ht⟩ := ih hrest
      exact ⟨t, by rw [eq_of_beq hab, List.cons_append, ht]⟩

theorem twinName_ne_vectorFilename (group : String) (item : VectorDef)
    (v : TestVector) : twinName group item v ≠ vectorFilename group item v := by
  unfold twinName
  by_cases h : brokenMarker.data.isPrefixOf (vectorFilename group item v).data
  · rw [if_pos h]
    obtain ⟨t, ht⟩ := isPrefixOf_exists h
    intro hEq
    have hd := congrArg String.data hEq
    rw [← ht] at hd
    simp only [List.drop_left'] at hd
    have hl := congrArg List.length hd
    simp only [List.length_append] at hl
    have hm : brokenMarker.data.length = 3 := by decide
    omega
  · rw [if_neg h]
    intro hEq
    have hd := congrArg String.data hEq
    simp only [String.data_append] at hd
    have hl := congrArg List.length hd
    simp only [List.length_append] at hl
    have hm : brokenMarker.data.length = 3 := by decide
    omega

theorem vectorFilename_ne_twinName (group : String) (item : VectorDef)
    (v : TestVector) : vectorFilename group item v ≠ twinName group item v :=
  fun h => twinName_ne_vectorFilename group item v h.symm

theorem persistVector_skip_eq (mode : OverwriteMode) (fs : FS) (group : String)
    (item : VectorDef) (v : TestVector) (old : TestVector)
    (hmode : mode ≠ OverwriteMode.Force)
    (h1 : fsGet fs (vectorFilename group item v) = some old)
    (h2 : vectorsEqual v old = true) :
    persistVector mode fs group item v = (fs, WriteOutcome.skippedEqual) := by
  simp [persistVector, h1, h2, hmode]

theorem persistVector_written_fs (mode : OverwriteMode) (fs : FS) (group : String)
    (item : VectorDef) (v : TestVector)
    (h : (persistVector mode fs group item v).2 = WriteOutcome.written) :
    (persistVector mode fs group item v).1 =
      fsRemove (fsSet fs (vectorFilename group item v) v) (twinName group item v) := by
  rcases hg : fsGet fs (vectorFilename group item v) with _ | old
  · simp [persistVector, removePrevious, hg]
  · by_cases hf : mode = OverwriteMode.Force
    · simp [persistVector, removePrevious, hg, hf]
    · by_cases he : vectorsEqual v old
      · simp [persistVector, hg, hf, he] at h
      · by_cases hn : mode = OverwriteMode.None
        · simp [persistVector, hg, hf, he, hn] at h
        · simp [persistVector, removePrevious, hg, hf, he, hn]

theorem persistVector_frame (mode : OverwriteMode) (fs : FS) (group : String)
    (item : VectorDef) (v : TestVector) (p : String)
    (h1 : p ≠ vectorFilename group item v) (h2 : p ≠ twinName group item v) :
    fsGet (persistVector mode fs group item v).1 p = fsGet fs p := by
  rcases hg : fsGet fs (vectorFilename group item v) with _ | old
  · simp [persistVector, removePrevious, hg, fsGet_fsRemove, fsGet_fsSet, h1, h2]
  · by_cases hf : mode = OverwriteMode.Force
    · simp [persistVector, removePrevious, hg, hf, fsGet_fsRemove, fsGet_fsSet, h1, h2]
    · by_cases he : vectorsEqual v old
      · simp [persistVector, hg, hf, he]
      · by_cases hn : mode = OverwriteMode.None
        · simp [persistVector, hg, hf, he, hn]
        · simp [persistVector, removePrevious, hg, hf, he, hn,
            fsGet_fsRemove, fsGet_fsSet, h1, h2]

theorem persistVector_update_good (fs : FS) (group : String) (item : VectorDef)
    (v : TestVector) :
    ∃ w, fsGet (persistVector OverwriteMode.Update fs group item v).1
        (vectorFilename group item v) = some w ∧ vectorsEqual v w = true := by
  have hne := vectorFilename_ne_twinName group item v
  rcases hg : fsGet fs (vectorFilename group item v) with _ | old
  · refine ⟨v, ?_, vectorsEqual_refl v⟩
    simp [persistVector, removePrevious, hg, fsGet_fsRemove, fsGet_fsSet, hne]
  · by_cases he : vectorsEqual v old
    · exact ⟨old, by simp [persistVector, hg, he], he⟩
    · refine ⟨v, ?_, vectorsEqual_refl v⟩
      simp [persistVector, removePrevious, hg, he, fsGet_fsRemove, fsGet_fsSet, hne]

theorem persistAll_frame (mode : OverwriteMode) (group : String) (p : String) :
    ∀ (arts : List (VectorDef × TestVector)) (fs : FS),
    (∀ e ∈ arts, p ≠ vectorFilename group e.1 e.2 ∧ p ≠ twinName group e.1 e.2) →
    fsGet (persistAll mode group fs arts).1 p = fsGet fs p := by
  intro arts
  induction arts with
  | nil => intro fs _; rfl
  | cons e rest ih =>
    intro fs h
    have he := h e (List.mem_cons_self e rest)
    have hrest : ∀ x ∈ rest,
        p ≠ vectorFilename group x.1 x.2 ∧ p ≠ twinName group x.1 x.2 :=
      fun x hx => h x (List.mem_cons_of_mem e hx)
    simp only [persistAll]
    rw [ih _ hrest]
    exact persistVector_frame mode fs group e.1 e.2 p he.1 he.2

/-- The pairwise disjointness of final file names produced by one run:
distinct artifacts never target the same final name, and a later
artifact's twin name never collides with an earlier artifact's final
name (spec section 5: group+caseID+variant are unique per artifact). -/
def NamesDisjoint (group : String) (arts : List (VectorDef × TestVector)) : Prop :=
  List.Pairwise (fun e1 e2 =>
    vectorFilename group e1.1 e1.2 ≠ vectorFilename group e2.1 e2.2 ∧
    twinName group e2.1 e2.2 ≠ vectorFilename group e1.1 e1.2) arts

theorem persistAll_update_establishes (group : String) :
    ∀ (arts : List (VectorDef × TestVector)) (fs : FS),
    NamesDisjoint group arts →
    ∀ e ∈ arts, ∃ w,
      fsGet (persistAll OverwriteMode.Update group fs arts).1
        (vectorFilename group e.1 e.2) = some w ∧ vectorsEqual e.2 w = true := by
  intro arts
  induction arts with
  | nil => intro fs _ e he; exact absurd he (List.not_mem_nil e)
  | cons a rest ih =>
    intro fs hdisj e he
    have hpair := (List.pairwise_cons.mp hdisj).1
    have htail := (List.pairwise_cons.mp hdisj).2
    rcases List.mem_cons.mp he with rfl | hmem
    · obtain ⟨w, hw, hweq⟩ := persistVector_update_good fs group e.1 e.2
      refine ⟨w, ?_, hweq⟩
      simp only [persistAll]
      rw [persistAll_frame OverwriteMode.Update group
        (vectorFilename group e.1 e.2) rest _
        (fun x hx => ⟨(hpair x hx).1, fun hc => (hpair x hx).2 hc.symm⟩)]
      exact hw
    · simp only [persistAll]
      exact ih _ htail e hmem

theorem persistAll_update_all_equal (group : String) :
    ∀ (arts : List (VectorDef × TestVector)) (fs : FS),
    (∀ e ∈ arts, ∃ w, fsGet fs (vectorFilename group e.1 e.2) = some w ∧
      vectorsEqual e.2 w = true) →
    persistAll OverwriteMode.Update group fs arts =
      (fs, arts.map (fun _ => WriteOutcome.skippedEqual)) := by
  intro arts
  induction arts with
  | nil => intro fs _; rfl
  | cons a rest ih =>
    intro fs h
    obtain ⟨w, hw, hweq⟩ := h a (List.mem_cons_self a rest)
    have hstep := persistVector_skip_eq OverwriteMode.Update fs group a.1 a.2 w
      (by decide) hw hweq
    simp only [persistAll, hstep]
    rw [ih fs (fun x hx => h x (List.mem_cons_of_mem a hx))]
    simp

theorem uniqLookup_isSome_iff (uniq : Uniq) (k : List JsonTok) :
    (uniqLookup uniq k).isSome = true ↔ k ∈ uniq.map Prod.fst := by
  induction uniq with
  | nil => simp [uniqLookup]
  | cons p rest ih =>
    simp only [uniqLookup, List.map_cons, List.mem_cons]
    by_cases h : p.1 = k
    · simp [h]
    · rw [if_neg h, ih]
      constructor
      · exact fun hm => Or.inr hm
      · rintro (hc | hm)
        · exact absurd hc.symm h
        · exact hm

theorem mem_appendVariants {uniq : Uniq} {k : List JsonTok} {vs : List Variant}
    {p : List JsonTok × TestVector} :
    p ∈ appendVariants uniq k vs ↔
    ∃ q ∈ uniq, p =
      if q.1 = k then (q.1, { q.2 with variants := q.2.variants ++ vs }) else q := by
  simp only [appendVariants, List.mem_map]
  constructor
  · rintro ⟨q, hq, rfl⟩
    exact ⟨q, hq, rfl⟩
  · rintro ⟨q, hq, rfl⟩
    exact ⟨q, hq, rfl⟩

theorem appendVariants_keys (uniq : Uniq) (k : List JsonTok) (vs : List Variant) :
    (appendVariants uniq k vs).map Prod.fst = uniq.map Prod.fst := by
  induction uniq with
  | nil => rfl
  | cons p rest ih =>
    by_cases h : p.1 = k <;> simp [appendVariants, h] <;>
      simpa [appendVariants] using ih

theorem uniqInv_step_miss (processed : List TestVector) (uniq : Uniq)
    (v : TestVector) (h : UniqInv processed uniq)
    (hl : uniqLookup uniq (vectorKey v) = none) :
    UniqInv (processed ++ [v]) (uniq ++ [(vectorKey v, v)]) := by
  obtain ⟨h1, h2, h3, h4⟩ := h
  have hk : vectorKey v ∉ uniq.map Prod.fst := by
    intro hmem
    have := (uniqLookup_isSome_iff uniq (vectorKey v)).mpr hmem
    rw [hl] at this
    exact absurd this (by simp)
  have hkp : vectorKey v ∉ processed.map vectorKey := fun hc => hk ((h3 _).mpr hc)
  refine ⟨?_, ?_, ?_, ?_⟩
  · simp only [List.map_append, List.map_cons, List.map_nil]
    rw [List.nodup_append]
    exact ⟨h1, List.nodup_singleton _, by simpa using hk⟩
  · intro p hp
    rcases List.mem_append.mp hp with hp | hp
    · exact h2 p hp
    · simp at hp
      subst hp
      rfl
  · intro k
    simp only [List.map_append, List.map_cons, List.map_nil, List.mem_append]
    constructor
    · rintro (hk2 | hk2)
      · exact Or.inl ((h3 k).mp hk2)
      · exact Or.inr hk2
    · rintro (hk2 | hk2)
      · exact Or.inl ((h3 k).mpr hk2)
      · exact Or.inr hk2
  · intro p hp
    rcases List.mem_append.mp hp with hp | hp
    · have hne : vectorKey v ≠ p.1 := by
        intro hc
        exact hk (hc ▸ List.mem_map_of_mem Prod.fst hp)
      rw [List.filter_append]
      have : List.filter (fun w => decide (vectorKey w = p.1)) [v] = [] := by
        simp [hne]
      rw [this, List.append_nil]
      exact h4 p hp
    · simp at hp
      subst hp
      simp only [List.filter_append]
      have hnil : List.filter (fun w => decide (vectorKey w = vectorKey v)) processed = [] := by
        rw [List.filter_eq_nil_iff]
        intro w hw
        simp only [decide_eq_true_eq]
        intro hc
        exact hkp (hc ▸ List.mem_map_of_mem vectorKey hw)
      simp [hnil]

theorem uniqInv_step_hit (processed : List TestVector) (uniq : Uniq)
    (v : TestVector) (w : TestVector) (h : UniqInv processed uniq)
    (hl : uniqLookup uniq (vectorKey v) = some w) :
    UniqInv (processed ++ [v]) (appendVariants uniq (vectorKey v) v.variants) := by
  obtain ⟨h1, h2, h3, h4⟩ := h
  have hk : vectorKey v ∈ uniq.map Prod.fst := by
    refine (uniqLookup_isSome_iff uniq (vectorKey v)).mp ?_
    rw [hl]
    rfl
  refine ⟨?_, ?_, ?_, ?_⟩
  · rw [appendVariants_keys]
    exact h1
  · intro p hp
    obtain ⟨q, hq, hqe⟩ := mem_appendVariants.mp hp
    by_cases hqk : q.1 = vectorKey v
    · rw [if_pos hqk] at hqe
      subst hqe
      show vectorKey { q.2 with variants := q.2.variants ++ v.variants } = q.1
      rw [vectorKey_set_variants]
      exact h2 q hq
    · rw [if_neg hqk] at hqe
      rw [hqe]
      exact h2 q hq
  · intro k
    rw [appendVariants_keys]
    simp only [List.map_append, List.map_cons, List.map_nil, List.mem_append]
    constructor
    · intro hk2
      exact Or.inl ((h3 k).mp hk2)
    · rintro (hk2 | hk2)
      · exact (h3 k).mpr hk2
      · simp at hk2
        exact hk2 ▸ hk
  · intro p hp
    obtain ⟨q, hq, hqe⟩ := mem_appendVariants.mp hp
    by_cases hqk : q.1 = vectorKey v
    · rw [if_pos hqk] at hqe
      subst hqe
      show ({ q.2 with variants := q.2.variants ++ v.variants } : TestVector).variants =
        (((processed ++ [v]).filter (fun w2 => decide (vectorKey w2 = q.1))).map
          TestVector.variants).flatten
      rw [List.filter_append]
      have hfv : List.filter (fun w2 => decide (vectorKey w2 = q.1)) [v] = [v] := by
        simp [hqk]
      rw [hfv]
      simp only [List.map_append, List.map_cons, List.map_nil, List.flatten_append]
      rw [← h4 q hq]
      simp
    · rw [if_neg hqk] at hqe
      rw [hqe]
      have hne : vectorKey v ≠ q.1 := fun hc => hqk hc.symm
      show q.2.variants =
        (((processed ++ [v]).filter (fun w2 => decide (vectorKey w2 = q.1))).map
          TestVector.variants).flatten
      rw [List.filter_append]
      have : List.filter (fun w2 => decide (vectorKey w2 = q.1)) [v] = [] := by
        simp [hne]
      rw [this, List.append_nil]
      exact h4 q hq

theorem uniqInv_dedupInto :
    ∀ (rest processed : List TestVector) (uniq : Uniq),
    UniqInv processed uniq → UniqInv (processed ++ rest) (dedupInto uniq rest) := by
  intro rest
  induction rest with
  | nil => intro processed uniq h; simpa [dedupInto]
  | cons v rest ih =>
    intro processed uniq h
    rcases hl : uniqLookup uniq (vectorKey v) with _ | w
    · have hstep := uniqInv_step_miss processed uniq v h hl
      have := ih (processed ++ [v]) (uniq ++ [(vectorKey v, v)]) hstep
      simp only [dedupInto, hl]
      simpa [List.append_assoc] using this
    · have hstep := uniqInv_step_hit processed uniq v w h hl
      have := ih (processed ++ [v]) (appendVariants uniq (vectorKey v) v.variants) hstep
      simp only [dedupInto, hl]
      simpa [List.append_assoc] using this

theorem dedup_inv (vs : List TestVector) : UniqInv vs (dedupInto [] vs) := by
  have h0 : UniqInv [] ([] : Uniq) := by
    refine ⟨List.nodup_nil, ?_, ?_, ?_⟩ <;> simp
  simpa using uniqInv_dedupInto vs [] [] h0

theorem dedup_keys (vs : List TestVector) :
    (dedup vs).map vectorKey = (dedupInto [] vs).map Prod.fst := by
  obtain ⟨_, h2, _, _⟩ := dedup_inv vs
  simp only [dedup, List.map_map]
  exact List.map_congr_left (fun p hp => h2 p hp)

theorem dedupInto_const_key (k : List JsonTok) :
    ∀ (rest : List TestVector) (w : TestVector),
    vectorKey w = k → (∀ v ∈ rest, vectorKey v = k) →
    (dedupInto [(k, w)] rest).map Prod.snd =
      [{ w with variants := w.variants ++ (rest.map TestVector.variants).flatten }] := by
  intro rest
  induction rest with
  | nil =>
    intro w _ _
    simp [dedupInto]
  | cons v rest ih =>
    intro w hw hall
    have hv : vectorKey v = k := hall v (List.mem_cons_self v rest)
    have hlook : uniqLookup [(k, w)] (vectorKey v) = some w := by
      simp [uniqLookup, hv]
    have happ : appendVariants [(k, w)] (vectorKey v) v.variants =
        [(k, { w with variants := w.variants ++ v.variants })] := by
      simp [appendVariants, hv]
    simp only [dedupInto, hlook, happ]
    rw [ih { w with variants := w.variants ++ v.variants }
      (by rw [vectorKey_set_variants]; exact hw)
      (fun x hx => hall x (List.mem_cons_of_mem v hx))]
    simp

theorem dedupInto_variants_nonempty :
    ∀ (rest : List TestVector) (uniq : Uniq),
    (∀ v ∈ rest, v.variants ≠ []) → (∀ p ∈ uniq, p.2.variants ≠ []) →
    ∀ p ∈ dedupInto uniq rest, p.2.variants ≠ [] := by
  intro rest
  induction rest with
  | nil => intro uniq _ hu p hp; exact hu p hp
  | cons v rest ih =>
    intro uniq hr hu
    rcases hl : uniqLookup uniq (vectorKey v) with _ | w
    · simp only [dedupInto, hl]
      apply ih _ (fun x hx => hr x (List.mem_cons_of_mem v hx))
      intro p hp
      rcases List.mem_append.mp hp with hp | hp
      · exact hu p hp
      · simp at hp
        rw [hp]
        exact hr v (List.mem_cons_self v rest)
    · simp only [dedupInto, hl]
      apply ih _ (fun x hx => hr x (List.mem_cons_of_mem v hx))
      intro p hp
      obtain ⟨q, hq, hqe⟩ := mem_appendVariants.mp hp
      by_cases hqk : q.1 = vectorKey v
      · rw [if_pos hqk] at hqe
        rw [hqe]
        intro hc
        exact hu q hq (List.append_eq_nil.mp hc).1
      · rw [if_neg hqk] at hqe
        rw [hqe]
        exact hu q hq

theorem dedup_variants_nonempty (inputs : List TestVector)
    (hi : ∀ v ∈ inputs, v.variants ≠ []) :
    ∀ w ∈ dedup inputs, w.variants ≠ [] := by
  intro w hw
  obtain ⟨p, hp, hpe⟩ := List.mem_map.mp hw
  rw [← hpe]
  exact dedupInto_variants_nonempty inputs [] hi (by simp) p hp

theorem validateAndFilter_error_of_bad (filt : Option (String → Bool))
    (group : String) :
    ∀ (defs : List VectorDef) (v : VectorDef), v ∈ defs →
    v.messageFunc.isSome = v.tipsetFunc.isSome →
    ∃ e, validateAndFilter filt group defs = Except.error e := by
  intro defs
  induction defs with
  | nil => intro v hv _; exact absurd hv (List.not_mem_nil v)
  | cons d rest ih =>
    intro v hv hbad
    by_cases h1 : (d.messageFunc.isSome && d.tipsetFunc.isSome) = true
    · refine ⟨"vector with id " ++ d.metadata.id ++ " had more than one function", ?_⟩
      simp only [validateAndFilter]
      rw [if_pos h1]
    · by_cases h2 : ((!d.messageFunc.isSome) && (!d.tipsetFunc.isSome)) = true
      · refine ⟨"vector with id " ++ d.metadata.id ++ " had no functions", ?_⟩
        simp only [validateAndFilter]
        rw [if_neg h1, if_pos h2]
      · rcases List.mem_cons.mp hv with rfl | hmem
        · exfalso
          cases hm : v.messageFunc.isSome with
          | true => rw [hm] at hbad; simp [hm, hbad.symm] at h1
          | false => rw [hm] at hbad; simp [hm, hbad.symm] at h2
        · obtain ⟨e, he⟩ := ih v hmem hbad
          refine ⟨e, ?_⟩
          simp only [validateAndFilter]
          rw [if_neg h1, if_neg h2]
          by_cases hf : filteredOut filt group d = true
          · rw [if_pos hf]
            exact he
          · rw [if_neg hf, he]

/-! Theorems settling the claims. -/

/-- C1: for every list of artifacts produced for one definition, the
dedup step of generateVariants outputs exactly one artifact per distinct
cleared-variants serialization (output keys are distinct, and a key
appears in the output iff some input has it), and every output
artifact's variant-tag list is the concatenation, in first-seen
(iteration) order, of the variant tags of all inputs sharing its cleared
serialization; inputs with distinct cleared serializations remain
separate artifacts. -/
theorem c1_dedup_merges_equal_cleared_serializations (vs : List TestVector) :
    ((dedup vs).map vectorKey).Nodup ∧
    (∀ k, k ∈ (dedup vs).map vectorKey ↔ k ∈ vs.map vectorKey) ∧
    (∀ v ∈ dedup vs, v.variants =
      ((vs.filter (fun w => decide (vectorKey w = vectorKey v))).map
        TestVector.variants).flatten) := by
  obtain ⟨h1, h2, h3, h4⟩ := dedup_inv vs
  refine ⟨?_, ?_, ?_⟩
  · rw [dedup_keys]
    exact h1
  · intro k
    rw [dedup_keys]
    exact h3 k
  · intro v hv
    obtain ⟨p, hp, hpe⟩ := List.mem_map.mp hv
    subst hpe
    rw [h2 p hp]
    exact h4 p hp

/-- C1 witness: two artifacts with equal cleared serialization but
distinct tags dedup to the merged artifact with both tags in order. -/
theorem c1_witness :
    ((dedup [exVecA, exVecA2]).map vectorKey).Nodup ∧
    vectorKey exVecA ∈ (dedup [exVecA, exVecA2]).map vectorKey ∧
    exMergedAB.variants =
      (([exVecA, exVecA2].filter
        (fun w => decide (vectorKey w = vectorKey exMergedAB))).map
        TestVector.variants).flatten :=
  ⟨(c1_dedup_merges_equal_cleared_serializations [exVecA, exVecA2]).1,
   ((c1_dedup_merges_equal_cleared_serializations [exVecA, exVecA2]).2.1
     (vectorKey exVecA)).mpr (by decide),
   (c1_dedup_merges_equal_cleared_serializations [exVecA, exVecA2]).2.2
     exMergedAB (by decide)⟩

/-- C2: under the Update policy, an artifact whose metadata-stripped
serialization equals the committed file's is skipped with no filesystem
change; consequently, a second run of the persistence loop over the same
artifact list (with pairwise-disjoint file names, as unique case IDs
guarantee) performs zero writes: every artifact is skipped as equal and
the filesystem is unchanged. -/
theorem c2_update_policy_idempotent (group : String) :
    (∀ (fs : FS) (item : VectorDef) (v old : TestVector),
      fsGet fs (vectorFilename group item v) = some old →
      vectorsEqual v old = true →
      persistVector OverwriteMode.Update fs group item v =
        (fs, WriteOutcome.skippedEqual)) ∧
    (∀ (fs : FS) (arts : List (VectorDef × TestVector)),
      NamesDisjoint group arts →
      persistAll OverwriteMode.Update group
          ((persistAll OverwriteMode.Update group fs arts).1) arts =
        ((persistAll OverwriteMode.Update group fs arts).1,
          arts.map (fun _ => WriteOutcome.skippedEqual))) := by
  constructor
  · intro fs item v old h1 h2
    exact persistVector_skip_eq OverwriteMode.Update fs group item v old
      (by decide) h1 h2
  · intro fs arts hdisj
    exact persistAll_update_all_equal group arts _
      (persistAll_update_establishes group arts fs hdisj)

/-- C2 witness: a committed file equal up to metadata is skipped, the
filesystem unchanged; and the second run over a one-artifact list writes
nothing. -/
theorem c2_witness :
    fsGet exFSEq (vectorFilename "g" exDef exVecA) = some exOldEq ∧
    vectorsEqual exVecA exOldEq = true ∧
    persistVector OverwriteMode.Update exFSEq "g" exDef exVecA =
      (exFSEq, WriteOutcome.skippedEqual) ∧
    persistAll OverwriteMode.Update "g"
        ((persistAll OverwriteMode.Update "g" [] [(exDef, exVecA)]).1)
        [(exDef, exVecA)] =
      ((persistAll OverwriteMode.Update "g" [] [(exDef, exVecA)]).1,
        [WriteOutcome.skippedEqual]) :=
  ⟨by decide, by decide,
   (c2_update_policy_idempotent "g").1 exFSEq exDef exVecA exOldEq
     (by decide) (by decide),
   (c2_update_policy_idempotent "g").2 [] [(exDef, exVecA)]
     (List.pairwise_singleton _ _)⟩

/-- C3: under the None policy, an artifact whose final path holds a file
with different metadata-stripped content leaves the filesystem entirely
unchanged (so the existing file's bytes are untouched) and terminates in
the warning state skippedRefused, not an error. -/
theorem c3_none_policy_never_overwrites (fs : FS) (group : String)
    (item : VectorDef) (v : TestVector) (old : TestVector)
    (hex : fsGet fs (vectorFilename group item v) = some old)
    (hne : vectorsEqual v old = false) :
    persistVector OverwriteMode.None fs group item v =
      (fs, WriteOutcome.skippedRefused) := by
  simp [persistVector, hex, hne]

/-- C3 witness: a differing committed file under None is left in place
and the outcome is the warning. -/
theorem c3_witness :
    fsGet exFSDiff (vectorFilename "g" exDef exVecA) = some exOldDiff ∧
    vectorsEqual exVecA exOldDiff = false ∧
    persistVector OverwriteMode.None exFSDiff "g" exDef exVecA =
      (exFSDiff, WriteOutcome.skippedRefused) :=
  ⟨by decide, by decide,
   c3_none_policy_never_overwrites exFSDiff "g" exDef exVecA exOldDiff
     (by decide) (by decide)⟩

/-- C4: vectorsEqual returns true iff the two vectors' serializations
are byte-identical after the Meta field is cleared from both;
equivalently, two vectors differing only in Meta compare equal, and two
vectors differing in any other observed field compare unequal. -/
theorem c4_vectorsEqual_iff_meta_stripped (a b : TestVector) :
    (vectorsEqual a b = true ↔ vectorBytesNoMeta a = vectorBytesNoMeta b) ∧
    (vectorsEqual a b = true ↔ a.variants = b.variants ∧ a.body = b.body) := by
  constructor
  · simp [vectorsEqual]
  · simp [vectorsEqual, vectorBytesNoMeta, TestVector.mustMarshalJSON]

/-- C5: whenever the persistence step terminates in the written state,
the twin-named file (broken marker toggled) is absent from the output
directory and the artifact occupies its final path - the broken and
non-broken names are never both present after a write. -/
theorem c5_twin_absent_after_write (mode : OverwriteMode) (fs : FS)
    (group : String) (item : VectorDef) (v : TestVector)
    (h : (persistVector mode fs group item v).2 = WriteOutcome.written) :
    fsGet (persistVector mode fs group item v).1 (twinName group item v) = none ∧
    fsGet (persistVector mode fs group item v).1 (vectorFilename group item v) =
      some v := by
  rw [persistVector_written_fs mode fs group item v h]
  constructor
  · simp [fsGet_fsRemove]
  · rw [fsGet_fsRemove]
    rw [if_neg (vectorFilename_ne_twinName group item v)]
    simp [fsGet_fsSet]

/-- C5 witness: writing into an empty directory leaves no twin file. -/
theorem c5_witness :
    (persistVector OverwriteMode.Update [] "g" exDefBroken exVecA).2 =
      WriteOutcome.written ∧
    fsGet (persistVector OverwriteMode.Update [] "g" exDefBroken exVecA).1
      (twinName "g" exDefBroken exVecA) = none :=
  ⟨by decide,
   (c5_twin_absent_after_write OverwriteMode.Update [] "g" exDefBroken exVecA
     (by decide)).1⟩

/-- C6: the persisted file name is exactly
group--caseID--firstVariantTag.json, where the first variant tag is the
head of the artifact's merged variant list, prefixed with the broken
marker exactly when the definition's hints contain the known-incorrect
hint. -/
theorem c6_filename_convention (group : String) (item : VectorDef)
    (v : TestVector) (a : Variant) (rest : List Variant)
    (hv : v.variants = a :: rest) :
    vectorFilename group item v =
      (if HintIncorrect ∈ item.hints then brokenMarker else "") ++ group
        ++ "--" ++ item.metadata.id ++ "--" ++ a.id ++ ".json" := by
  by_cases hm : HintIncorrect ∈ item.hints
  · have hany : item.hints.any (fun h => decide (h = HintIncorrect)) = true := by
      rw [List.any_eq_true]
      exact ⟨HintIncorrect, hm, by simp⟩
    simp [vectorFilename, hv, hany, hm, String.append_assoc]
  · have hany : item.hints.any (fun h => decide (h = HintIncorrect)) = false := by
      rw [List.any_eq_false]
      intro x hx
      simp only [decide_eq_true_eq]
      exact fun hc => hm (hc ▸ hx)
    simp [vectorFilename, hv, hany, hm, String.append_assoc]

/-- C6 witness: a broken-hinted definition's artifact gets the marker
and the first tag. -/
theorem c6_witness :
    exVecA.variants = ({ id := "pvA" } : Variant) :: [] ∧
    vectorFilename "g" exDefBroken exVecA = "x--g--case1--pvA.json" :=
  ⟨rfl, by
    rw [c6_filename_convention "g" exDefBroken exVecA { id := "pvA" } [] rfl]
    decide⟩

/-- The variant lists of the candidate artifacts of the tail versions,
concatenated, are exactly the tail versions' tags. -/
theorem flatten_variants_of_map (md : Metadata) (c : String) :
    ∀ ks : List ProtocolVersion,
    ((List.map (fun pv =>
      ({ meta := some md, variants := [variantTag pv], body := c } : TestVector))
      ks).map TestVector.variants).flatten = List.map variantTag ks := by
  intro ks
  induction ks with
  | nil => rfl
  | cons a l ih =>
    simp only [List.map_cons, List.flatten_cons, ih]
    rfl

/-- Deduplicating candidates that share one body and metadata and carry
one tag each yields the single merged artifact with all tags in order. -/
theorem dedup_const_body (md : Metadata) (c : String) (k0 : ProtocolVersion)
    (ks : List ProtocolVersion) :
    dedup (List.map (fun pv =>
      ({ meta := some md, variants := [variantTag pv], body := c } : TestVector))
      (k0 :: ks)) =
    [{ meta := some md, variants := List.map variantTag (k0 :: ks),
       body := c }] := by
  have hstep : dedupInto []
      (({ meta := some md, variants := [variantTag k0], body := c } : TestVector) ::
        List.map (fun pv =>
          ({ meta := some md, variants := [variantTag pv], body := c } : TestVector)) ks) =
      dedupInto
        [(vectorKey ({ meta := some md, variants := [variantTag k0], body := c } : TestVector),
          ({ meta := some md, variants := [variantTag k0], body := c } : TestVector))]
        (List.map (fun pv =>
          ({ meta := some md, variants := [variantTag pv], body := c } : TestVector)) ks) := by
    simp [dedupInto, uniqLookup]
  have hall : ∀ x ∈ List.map (fun pv =>
      ({ meta := some md, variants := [variantTag pv], body := c } : TestVector)) ks,
      vectorKey x =
        vectorKey ({ meta := some md, variants := [variantTag k0], body := c } : TestVector) := by
    intro x hx2
    obtain ⟨pv, _, hpe⟩ := List.mem_map.mp hx2
    rw [← hpe]
    rfl
  unfold dedup
  rw [List.map_cons, hstep, dedupInto_const_key _ _ _ rfl hall]
  rw [flatten_variants_of_map md c ks]
  simp

/-- C7: a definition with nil/empty SupportedVersions is run once per
known protocol version, and if the generation function produces the same
body for every version, the definition yields exactly one artifact,
tagged with every known version's tag in order. -/
theorem c7_empty_supported_versions_runs_all_known
    (known : List ProtocolVersion) (b : VectorDef)
    (f : ProtocolVersion → String) (c : String)
    (hsv : b.supportedVersions = [])
    (hfn : b.messageFunc = some f ∨
      (b.messageFunc = none ∧ b.tipsetFunc = some f))
    (hconst : ∀ pv, f pv = c) (hne : known ≠ []) :
    (generateVariants known b).1 =
      some [{ meta := some { b.metadata with gen := genData },
              variants := known.map variantTag, body := c }] := by
  have hx : ∀ pv, runBuilder { b.metadata with gen := genData } f pv =
      { meta := some { b.metadata with gen := genData },
        variants := [variantTag pv], body := c } := by
    intro pv
    simp [runBuilder, hconst pv]
  have hver : (if b.supportedVersions.isEmpty then known else b.supportedVersions)
      = known := by
    rw [hsv]
    rfl
  have hdedup : dedup (known.map
      (fun pv => runBuilder { b.metadata with gen := genData } f pv)) =
      [{ meta := some { b.metadata with gen := genData },
         variants := known.map variantTag, body := c }] := by
    rcases known with _ | ⟨k0, ks⟩
    · exact absurd rfl hne
    · rw [List.map_congr_left (fun pv _ => hx pv)]
      exact dedup_const_body _ c k0 ks
  rcases hfn with hmf | ⟨hmf, htf⟩
  · simp only [generateVariants, hmf, hver, hdedup]
  · simp only [generateVariants, hmf, htf, hver, hdedup]

/-- C7 witness: exDef (no supported versions, version-independent body)
over two known versions yields one artifact tagged with both. -/
theorem c7_witness :
    (generateVariants exKnown exDef).1 =
      some [{ meta := some { exMeta with gen := genData },
              variants := exKnown.map variantTag, body := "bodyA" }] :=
  c7_empty_supported_versions_runs_all_known exKnown exDef
    (fun _ => "bodyA") "bodyA" rfl (Or.inl rfl) (fun _ => rfl) (by decide)

/-- C8: a group containing a definition with zero or two generation
functions is aborted by the pre-execution validation loop: the whole run
returns the validation error for any starting filesystem, so no task
runs and no artifact of the group is written. -/
theorem c8_invalid_def_aborts_group (mode : OverwriteMode)
    (filt : Option (String → Bool)) (known : List ProtocolVersion)
    (group : String) (defs : List VectorDef) (v : VectorDef)
    (hv : v ∈ defs) (hbad : v.messageFunc.isSome = v.tipsetFunc.isSome) :
    ∃ e, (∀ fs : FS, runGroupDefs mode filt known group fs defs =
            Except.error e) ∧
      validateAndFilter filt group defs = Except.error e := by
  obtain ⟨e, he⟩ := validateAndFilter_error_of_bad filt group defs v hv hbad
  exact ⟨e, fun fs => by simp [runGroupDefs, he], he⟩

/-- C8 witness: a singleton group with a function-less definition aborts
with a validation error on an empty directory. -/
theorem c8_witness :
    ∃ e, runGroupDefs OverwriteMode.None none [] "g" [] [exBadDef] =
      Except.error e := by
  obtain ⟨e, h1, _⟩ := c8_invalid_def_aborts_group OverwriteMode.None none []
    "g" [exBadDef] exBadDef (List.mem_cons_self exBadDef []) rfl
  exact ⟨e, h1 []⟩

/-- C9 counterexample: the claim that no field of a processed definition
(including its metadata) is modified is false: generateVariants stamps
genData into the shared Metadata object (line 443,
b.Metadata.Gen = genData), so a caller whose definition's Gen field
differs from genData observes a modified metadata object. -/
theorem c9_counterexample :
    (generateVariants exKnown exDef).2 ≠ exDef.metadata := by
  decide

/-- C9 (amended): processing a definition leaves every caller-visible
field unchanged except the metadata's generation-provenance field Gen,
which is set to genData; the metadata is unchanged exactly when its Gen
field already equals genData. -/
theorem c9_amended_only_gen_stamped (known : List ProtocolVersion)
    (b : VectorDef) :
    ((generateVariants known b).2.id = b.metadata.id ∧
     (generateVariants known b).2.desc = b.metadata.desc ∧
     (generateVariants known b).2.gen = genData) ∧
    ((generateVariants known b).2 = b.metadata ↔ b.metadata.gen = genData) := by
  refine ⟨⟨rfl, rfl, rfl⟩, ?_⟩
  constructor
  · intro h
    exact (congrArg Metadata.gen h).symm
  · intro h
    show ({ b.metadata with gen := genData } : Metadata) = b.metadata
    rw [← h]

/-- C10: every artifact emitted by generateVariants has a non-empty
variant-tag list (each candidate enters the dedup loop with exactly one
tag, and clearing for hashing is always followed by restoring or
merging), so the Variants[0] access in vectorFilename is in bounds. -/
theorem c10_emitted_variants_nonempty (known : List ProtocolVersion)
    (b : VectorDef) (vs : List TestVector)
    (h : (generateVariants known b).1 = some vs) :
    ∀ w ∈ vs, w.variants ≠ [] := by
  have hin : ∀ (md : Metadata) (f : ProtocolVersion → String)
      (l : List ProtocolVersion),
      ∀ v ∈ l.map (fun pv => runBuilder md f pv), v.variants ≠ [] := by
    intro md f l v hv
    obtain ⟨pv, _, hpe⟩ := List.mem_map.mp hv
    rw [← hpe]
    simp [runBuilder]
  rcases hmf : b.messageFunc with _ | f
  · rcases htf : b.tipsetFunc with _ | f
    · simp [generateVariants, hmf, htf] at h
    · simp only [generateVariants, hmf, htf, Option.some.injEq] at h
      rw [← h]
      exact dedup_variants_nonempty _ (hin _ _ _)
  · simp only [generateVariants, hmf, Option.some.injEq] at h
    rw [← h]
    exact dedup_variants_nonempty _ (hin _ _ _)

/-- C10 witness: the artifact generated for exDef carries tags. -/
theorem c10_witness : exMerged.variants ≠ [] :=
  c10_emitted_variants_nonempty exKnown exDef [exMerged] (by decide)
    exMerged (by decide)

end Gen
